import Mathlib

/-!
Verification of the AM demodulation pipeline in `src/audio-folder/fft2.py`.

Shallow embedding conventions:
* numpy float64 arrays are modelled as lists over an exact linearly ordered
  field (`ℚ` where concrete evaluation matters, `ℝ` where transcendental
  functions appear); IEEE special values are modelled explicitly only where
  they can actually arise (`FloatVal` for the peak normalization inside
  `save_audio`).
* `np.argmax` — the index of the first occurrence of the maximum, with
  booleans ordered `false < true` — is modelled by `np_argmax`.
-/

/-- Model of `np.argmax`: the index of the first occurrence of the maximum
value of the list.  numpy raises on an empty array; the model returns `0`
there and all theorems about it assume a non-empty list. -/
def np_argmax {β : Type} [LinearOrder β] : List β → ℕ
  | [] => 0
  | [_] => 0
  | x :: y :: l =>
    if (y :: l).getD (np_argmax (y :: l)) y ≤ x then 0
    else np_argmax (y :: l) + 1

/-- `List.getD` does not depend on the default at an in-range index. -/
theorem getD_congr_default {β : Type} (l : List β) {i : ℕ} (hi : i < l.length)
    (d d' : β) : l.getD i d = l.getD i d' := by
  rw [List.getD_eq_getElem l d hi, List.getD_eq_getElem l d' hi]

/-- The index returned by `np_argmax` is in range on a non-empty list. -/
theorem np_argmax_lt_length {β : Type} [LinearOrder β] (l : List β)
    (h : l ≠ []) : np_argmax l < l.length := by
  induction l with
  | nil => exact absurd rfl h
  | cons x xs ih =>
    cases xs with
    | nil => simp [np_argmax]
    | cons y l =>
      rw [np_argmax]
      split
      · simp
      · have := ih (by simp)
        simpa [Nat.succ_lt_succ_iff] using this

/-- The value at the `np_argmax` index is an upper bound for every value of
the list. -/
theorem np_argmax_getD_le {β : Type} [LinearOrder β] (l : List β) (d : β)
    {j : ℕ} (hj : j < l.length) :
    l.getD j d ≤ l.getD (np_argmax l) d := by
  induction l generalizing j with
  | nil => simp at hj
  | cons x xs ih =>
    cases xs with
    | nil =>
      have hj0 : j = 0 := by simpa using Nat.lt_one_iff.mp (by simpa using hj)
      subst hj0
      simp [np_argmax]
    | cons y l =>
      rw [np_argmax]
      split
      · rename_i hle
        have hax : np_argmax (y :: l) < (y :: l).length :=
          np_argmax_lt_length _ (by simp)
        cases j with
        | zero => simp
        | succ j =>
          have hj' : j < (y :: l).length := by simpa [Nat.succ_lt_succ_iff] using hj
          have h1 : (y :: l).getD j d ≤ (y :: l).getD (np_argmax (y :: l)) d := ih hj'
          have h2 : (y :: l).getD (np_argmax (y :: l)) d = (y :: l).getD (np_argmax (y :: l)) y :=
            getD_congr_default _ hax d y
          calc (x :: y :: l).getD (j + 1) d = (y :: l).getD j d := by simp [List.getD_cons_succ]
            _ ≤ (y :: l).getD (np_argmax (y :: l)) y := h2 ▸ h1
            _ ≤ x := hle
            _ = (x :: y :: l).getD 0 d := by simp
      · rename_i hlt
        push_neg at hlt
        have hax : np_argmax (y :: l) < (y :: l).length :=
          np_argmax_lt_length _ (by simp)
        have h2 : (y :: l).getD (np_argmax (y :: l)) y = (y :: l).getD (np_argmax (y :: l)) d :=
          getD_congr_default _ hax y d
        cases j with
        | zero =>
          simp only [List.getD_cons_zero, List.getD_cons_succ]
          exact le_of_lt (h2 ▸ hlt)
        | succ j =>
          have hj' : j < (y :: l).length := by simpa [Nat.succ_lt_succ_iff] using hj
          simpa [List.getD_cons_succ] using ih hj'

/-- Before the `np_argmax` index every value is strictly below the value at
the index: `np_argmax` returns the first occurrence of the maximum. -/
theorem np_argmax_getD_first {β : Type} [LinearOrder β] (l : List β) (d : β)
    {j : ℕ} (hj : j < np_argmax l) :
    l.getD j d < l.getD (np_argmax l) d := by
  induction l generalizing j with
  | nil => simp [np_argmax] at hj
  | cons x xs ih =>
    cases xs with
    | nil => simp [np_argmax] at hj
    | cons y l =>
      by_cases hc : (y :: l).getD (np_argmax (y :: l)) y ≤ x
      · rw [np_argmax, if_pos hc] at hj
        simp at hj
      · rw [np_argmax, if_neg hc] at hj ⊢
        push_neg at hc
        have hax : np_argmax (y :: l) < (y :: l).length :=
          np_argmax_lt_length _ (by simp)
        have h2 : (y :: l).getD (np_argmax (y :: l)) y = (y :: l).getD (np_argmax (y :: l)) d :=
          getD_congr_default _ hax y d
        cases j with
        | zero =>
          simp only [List.getD_cons_zero, List.getD_cons_succ]
          exact h2 ▸ hc
        | succ j =>
          have hj' : j < np_argmax (y :: l) := by omega
          simpa [List.getD_cons_succ] using ih hj'

/-- On a boolean list with at least one `true`, the value at the `np_argmax`
index is `true` (numpy: `argmax` of a boolean mask lands on a `true` entry
whenever one exists). -/
theorem np_argmax_bool_true (l : List Bool) {j : ℕ} (hj : j < l.length)
    (hv : l.getD j false = true) :
    l.getD (np_argmax l) false = true := by
  have h := np_argmax_getD_le l false hj
  rw [hv] at h
  exact le_antisymm (Bool.le_true _) h

/-- On an all-`false` boolean list, `np_argmax` is `0` (numpy: `argmax` of an
all-`false` mask is index `0`). -/
theorem np_argmax_bool_false (l : List Bool)
    (h : ∀ j, j < l.length → l.getD j false = false) :
    np_argmax l = 0 := by
  by_contra hne
  have hpos : 0 < np_argmax l := Nat.pos_of_ne_zero hne
  have hlt := np_argmax_getD_first l false hpos
  have hne' : l ≠ [] := by
    intro hl
    subst hl
    simp [np_argmax] at hne
  have hlen := np_argmax_lt_length l hne'
  rw [h 0 (lt_trans hpos hlen), h _ hlen] at hlt
  exact absurd hlt (lt_irrefl false)

/-- `start_idx = np.argmax(frequencies > 1000)` (fft2.py line 39): index of
the first frequency bin strictly above 1000 Hz, `0` when there is none. -/
def carrier_start_idx {α : Type} [LinearOrderedField α] (frequencies : List α) : ℕ :=
  np_argmax (frequencies.map (fun f => decide (1000 < f)))

/-- `peak_idx = np.argmax(magnitudes[start_idx:]) + start_idx`
(fft2.py line 40). -/
def carrier_peak_idx {α β : Type} [LinearOrderedField α] [LinearOrder β]
    (frequencies : List α) (magnitudes : List β) : ℕ :=
  np_argmax (magnitudes.drop (carrier_start_idx frequencies)) + carrier_start_idx frequencies

/-- Shallow embedding of `find_carrier_frequency` (fft2.py lines 37-56,
computation only; the plotting and printing side effects are peripheral):
`carrier_freq = frequencies[peak_idx]` (fft2.py line 41).  Generic over the
(exact) number type of the frequency axis and the ordered type of the
magnitudes. -/
def find_carrier_frequency {α β : Type} [LinearOrderedField α] [LinearOrder β]
    (frequencies : List α) (magnitudes : List β) : α :=
  frequencies.getD (carrier_peak_idx frequencies magnitudes) 0

/-- `getD` through `drop`. -/
theorem getD_drop_add {β : Type} (l : List β) (d : β) (s j : ℕ)
    (h : s + j < l.length) :
    (l.drop s).getD j d = l.getD (s + j) d := by
  have hj : j < (l.drop s).length := by
    simp only [List.length_drop]
    omega
  rw [List.getD_eq_getElem _ _ hj, List.getD_eq_getElem _ _ h]
  exact List.getElem_drop l

/-- The boolean mask `frequencies > 1000`, read at an in-range index. -/
theorem carrier_mask_getD {α : Type} [LinearOrderedField α] (freqs : List α)
    {j : ℕ} (hj : j < freqs.length) :
    (freqs.map (fun f => decide (1000 < f))).getD j false =
      decide (1000 < freqs.getD j 0) := by
  rw [List.getD_eq_getElem _ _ (by simpa using hj), List.getD_eq_getElem _ _ hj,
    List.getElem_map]

/-- The start index is in range whenever the spectrum is non-empty. -/
theorem carrier_start_idx_lt_length {α : Type} [LinearOrderedField α]
    (freqs : List α) (hne : freqs ≠ []) :
    carrier_start_idx freqs < freqs.length := by
  have := np_argmax_lt_length (freqs.map (fun f => decide (1000 < f)))
    (by simpa using hne)
  simpa using this

/-- When some bin exceeds 1000 Hz, the start index lands on a bin above
1000 Hz and every earlier bin is at most 1000 Hz. -/
theorem carrier_start_idx_spec {α : Type} [LinearOrderedField α]
    (freqs : List α) {j : ℕ} (hj : j < freqs.length)
    (hgt : 1000 < freqs.getD j 0) :
    1000 < freqs.getD (carrier_start_idx freqs) 0 ∧
      ∀ i, i < carrier_start_idx freqs → freqs.getD i 0 ≤ 1000 := by
  have hne : freqs ≠ [] := by
    intro h
    subst h
    simp at hj
  have hs := carrier_start_idx_lt_length freqs hne
  have hmaskj : (freqs.map (fun f => decide (1000 < f))).getD j false = true := by
    rw [carrier_mask_getD freqs hj]
    exact decide_eq_true hgt
  have hmax0 := np_argmax_bool_true (freqs.map (fun f => decide (1000 < f)))
    (by simpa using hj) hmaskj
  have hmax : (freqs.map (fun f => decide (1000 < f))).getD (carrier_start_idx freqs) false =
      true := hmax0
  rw [carrier_mask_getD freqs hs] at hmax
  refine ⟨of_decide_eq_true hmax, ?_⟩
  intro i hi
  have hilt : i < freqs.length := lt_trans hi hs
  have hfirst0 := np_argmax_getD_first (freqs.map (fun f => decide (1000 < f))) false hi
  have hfirst : (freqs.map (fun f => decide (1000 < f))).getD i false <
      (freqs.map (fun f => decide (1000 < f))).getD (carrier_start_idx freqs) false := hfirst0
  rw [carrier_mask_getD freqs hilt, carrier_mask_getD freqs hs, hmax] at hfirst
  have : decide (1000 < freqs.getD i 0) = false := by
    cases hd : decide (1000 < freqs.getD i 0)
    · rfl
    · rw [hd] at hfirst
      exact absurd hfirst (lt_irrefl true)
  exact not_lt.mp (of_decide_eq_false this)

/-- When every bin is at most 1000 Hz, the start index is `0`: the search
covers the whole spectrum. -/
theorem carrier_start_idx_all_le {α : Type} [LinearOrderedField α]
    (freqs : List α) (h : ∀ f ∈ freqs, f ≤ 1000) :
    carrier_start_idx freqs = 0 := by
  apply np_argmax_bool_false
  intro j hj
  have hj' : j < freqs.length := by simpa using hj
  rw [carrier_mask_getD freqs hj']
  refine decide_eq_false (not_lt.mpr ?_)
  apply h
  rw [List.getD_eq_getElem _ _ hj']
  exact List.getElem_mem hj'

/-- The peak index: bounds, maximality from the start index on, and
first-occurrence tie-breaking from the start index on. -/
theorem carrier_peak_idx_spec {α β : Type} [LinearOrderedField α] [LinearOrder β]
    (freqs : List α) (mags : List β) (d : β)
    (hlen : freqs.length = mags.length) (hne : freqs ≠ []) :
    carrier_start_idx freqs ≤ carrier_peak_idx freqs mags ∧
    carrier_peak_idx freqs mags < freqs.length ∧
    (∀ j, carrier_start_idx freqs ≤ j → j < freqs.length →
      mags.getD j d ≤ mags.getD (carrier_peak_idx freqs mags) d) ∧
    (∀ j, carrier_start_idx freqs ≤ j → j < carrier_peak_idx freqs mags →
      mags.getD j d < mags.getD (carrier_peak_idx freqs mags) d) := by
  have hs := carrier_start_idx_lt_length freqs hne
  set s := carrier_start_idx freqs with hsdef
  have hdropne : mags.drop s ≠ [] := by
    have : 0 < (mags.drop s).length := by
      simp only [List.length_drop]
      omega
    exact List.ne_nil_of_length_pos this
  have hplt := np_argmax_lt_length (mags.drop s) hdropne
  rw [List.length_drop] at hplt
  have hpeak : carrier_peak_idx freqs mags = np_argmax (mags.drop s) + s := rfl
  refine ⟨by omega, by omega, ?_, ?_⟩
  · intro j hsj hjlt
    have h1 : (mags.drop s).getD (j - s) d ≤ (mags.drop s).getD (np_argmax (mags.drop s)) d :=
      np_argmax_getD_le _ d (by simp only [List.length_drop]; omega)
    rw [getD_drop_add mags d s (j - s) (by omega),
      getD_drop_add mags d s (np_argmax (mags.drop s)) (by omega)] at h1
    have hj' : s + (j - s) = j := by omega
    have hp' : s + np_argmax (mags.drop s) = carrier_peak_idx freqs mags := by
      rw [hpeak]; omega
    rwa [hj', hp'] at h1
  · intro j hsj hjlt
    have h1 : (mags.drop s).getD (j - s) d < (mags.drop s).getD (np_argmax (mags.drop s)) d :=
      np_argmax_getD_first _ d (by rw [hpeak] at hjlt; omega)
    rw [getD_drop_add mags d s (j - s) (by omega),
      getD_drop_add mags d s (np_argmax (mags.drop s)) (by omega)] at h1
    have hj' : s + (j - s) = j := by omega
    have hp' : s + np_argmax (mags.drop s) = carrier_peak_idx freqs mags := by
      rw [hpeak]; omega
    rwa [hj', hp'] at h1

/-- In a strictly sorted frequency axis, `getD` is strictly monotone on
in-range indices. -/
theorem sorted_getD_lt {α : Type} [LinearOrderedField α] (freqs : List α)
    (hs : freqs.Sorted (· < ·)) {i j : ℕ} (hij : i < j) (hj : j < freqs.length) :
    freqs.getD i 0 < freqs.getD j 0 := by
  rw [List.getD_eq_getElem _ _ (lt_trans hij hj), List.getD_eq_getElem _ _ hj]
  have := hs.rel_get_of_lt
    (show (⟨i, lt_trans hij hj⟩ : Fin freqs.length) < ⟨j, hj⟩ from hij)
  simpa using this

/-- C1: for every spectrum (strictly increasing frequency axis, equal-length
magnitude axis) with at least one bin strictly above 1000 Hz,
`find_carrier_frequency` returns the frequency of the bin of maximum
magnitude among the bins strictly above 1000 Hz, and among ties it returns
the first (lowest-frequency) such bin. -/
theorem find_carrier_frequency_peak (freqs mags : List ℚ)
    (hlen : freqs.length = mags.length)
    (hsorted : freqs.Sorted (· < ·))
    (hex : ∃ f ∈ freqs, 1000 < f) :
    ∃ i, i < freqs.length ∧
      find_carrier_frequency freqs mags = freqs.getD i 0 ∧
      1000 < freqs.getD i 0 ∧
      (∀ j, j < freqs.length → 1000 < freqs.getD j 0 → mags.getD j 0 ≤ mags.getD i 0) ∧
      (∀ j, j < freqs.length → 1000 < freqs.getD j 0 → mags.getD j 0 = mags.getD i 0 → i ≤ j) := by
  obtain ⟨f, hf, hgt⟩ := hex
  rw [List.mem_iff_getElem] at hf
  obtain ⟨j, hj, rfl⟩ := hf
  have hgt' : 1000 < freqs.getD j 0 := by rwa [List.getD_eq_getElem _ _ hj]
  have hne : freqs ≠ [] := by
    intro h
    subst h
    simp at hj
  obtain ⟨hstart_gt, hstart_le⟩ := carrier_start_idx_spec freqs hj hgt'
  obtain ⟨hsp, hplt, hmax, hfirst⟩ := carrier_peak_idx_spec freqs mags 0 hlen hne
  have hkey : ∀ k, k < freqs.length →
      (1000 < freqs.getD k 0 ↔ carrier_start_idx freqs ≤ k) := by
    intro k hk
    constructor
    · intro h1k
      by_contra hc
      push_neg at hc
      exact absurd h1k (not_lt.mpr (hstart_le k hc))
    · intro hsk
      rcases eq_or_lt_of_le hsk with rfl | hlt
      · exact hstart_gt
      · exact lt_trans hstart_gt (sorted_getD_lt freqs hsorted hlt hk)
  refine ⟨carrier_peak_idx freqs mags, hplt, rfl, (hkey _ hplt).mpr hsp, ?_, ?_⟩
  · intro j' hj' h1j'
    exact hmax j' ((hkey j' hj').mp h1j') hj'
  · intro j' hj' h1j' heq
    by_contra hc
    push_neg at hc
    have := hfirst j' ((hkey j' hj').mp h1j') hc
    rw [heq] at this
    exact absurd this (lt_irrefl _)

/-- Witness for C1 at the concrete spectrum `([999, 2000, 3000], [5, 7, 7])`:
the hypotheses hold and the conclusion follows by the theorem. -/
theorem find_carrier_frequency_peak_witness :
    ([(999 : ℚ), 2000, 3000].length = [(5 : ℚ), 7, 7].length) ∧
    ([(999 : ℚ), 2000, 3000].Sorted (· < ·)) ∧
    (∃ f ∈ [(999 : ℚ), 2000, 3000], 1000 < f) ∧
    (∃ i, i < [(999 : ℚ), 2000, 3000].length ∧
      find_carrier_frequency [(999 : ℚ), 2000, 3000] [(5 : ℚ), 7, 7] =
        [(999 : ℚ), 2000, 3000].getD i 0 ∧
      1000 < [(999 : ℚ), 2000, 3000].getD i 0 ∧
      (∀ j, j < [(999 : ℚ), 2000, 3000].length →
        1000 < [(999 : ℚ), 2000, 3000].getD j 0 →
        [(5 : ℚ), 7, 7].getD j 0 ≤ [(5 : ℚ), 7, 7].getD i 0) ∧
      (∀ j, j < [(999 : ℚ), 2000, 3000].length →
        1000 < [(999 : ℚ), 2000, 3000].getD j 0 →
        [(5 : ℚ), 7, 7].getD j 0 = [(5 : ℚ), 7, 7].getD i 0 → i ≤ j)) :=
  ⟨by decide, by decide, by decide,
    find_carrier_frequency_peak _ _ (by decide) (by decide) (by decide)⟩

/-- C2: when every bin of a non-empty spectrum is at most 1000 Hz, the start
index degenerates to `0` (numpy `argmax` of an all-false mask), so the search
falls back to the whole spectrum: no empty slice, no out-of-range index, and
the result is the frequency of the globally maximal-magnitude bin. -/
theorem find_carrier_frequency_fallback (freqs mags : List ℚ)
    (hlen : freqs.length = mags.length) (hne : freqs ≠ [])
    (hall : ∀ f ∈ freqs, f ≤ 1000) :
    carrier_start_idx freqs = 0 ∧
    find_carrier_frequency freqs mags = freqs.getD (np_argmax mags) 0 ∧
    ∃ i, i < freqs.length ∧ find_carrier_frequency freqs mags = freqs.getD i 0 ∧
      ∀ j, j < freqs.length → mags.getD j 0 ≤ mags.getD i 0 := by
  have hs0 := carrier_start_idx_all_le freqs hall
  obtain ⟨hsp, hplt, hmax, _⟩ := carrier_peak_idx_spec freqs mags 0 hlen hne
  have hpeak : carrier_peak_idx freqs mags = np_argmax mags := by
    rw [carrier_peak_idx, hs0]
    simp
  refine ⟨hs0, ?_, carrier_peak_idx freqs mags, hplt, rfl, ?_⟩
  · rw [find_carrier_frequency, hpeak]
  · intro j hj
    refine hmax j ?_ hj
    rw [hs0]
    exact Nat.zero_le j

/-- Witness for C2 at the concrete spectrum `([100, 500], [1, 9])`: every
bin is at most 1000 Hz, and the conclusion follows by the theorem. -/
theorem find_carrier_frequency_fallback_witness :
    ([(100 : ℚ), 500].length = [(1 : ℚ), 9].length) ∧
    ([(100 : ℚ), 500] ≠ ([] : List ℚ)) ∧
    (∀ f ∈ [(100 : ℚ), 500], f ≤ 1000) ∧
    (carrier_start_idx [(100 : ℚ), 500] = 0 ∧
      find_carrier_frequency [(100 : ℚ), 500] [(1 : ℚ), 9] =
        [(100 : ℚ), 500].getD (np_argmax [(1 : ℚ), 9]) 0 ∧
      ∃ i, i < [(100 : ℚ), 500].length ∧
        find_carrier_frequency [(100 : ℚ), 500] [(1 : ℚ), 9] =
          [(100 : ℚ), 500].getD i 0 ∧
        ∀ j, j < [(100 : ℚ), 500].length →
          [(1 : ℚ), 9].getD j 0 ≤ [(1 : ℚ), 9].getD i 0) :=
  ⟨by decide, by decide, by decide,
    find_carrier_frequency_fallback _ _ (by decide) (by decide) (by decide)⟩

/-- Model of `np.fft.rfftfreq(n, d)` (fft2.py line 22 with `d = 1/sample_rate`):
`arange(n // 2 + 1) / (d * n)`. -/
def np_rfftfreq {α : Type} [LinearOrderedField α] (n : ℕ) (d : α) : List α :=
  (List.range (n / 2 + 1)).map (fun k : ℕ => (k : α) / (d * n))

/-- Model of `np.fft.rfft(x)` (fft2.py line 23): the one-sided DFT of a real
signal of length `n`, coefficient `k = 0, ..., n / 2` being
`Σ_j x_j · exp(-2πi·j·k/n)` with no normalization. -/
noncomputable def np_rfft (x : List ℝ) : List ℂ :=
  (List.range (x.length / 2 + 1)).map (fun k : ℕ =>
    ∑ j ∈ Finset.range x.length,
      ((x.getD j 0 : ℝ) : ℂ) *
        Complex.exp (-(2 * (Real.pi : ℂ) * Complex.I * (j : ℂ) * (k : ℂ)) / (x.length : ℂ)))

/-- Shallow embedding of `analyze_spectrum` (fft2.py lines 20-35, computation
only; the plotting side effects are peripheral): frequency axis from
`np.fft.rfftfreq(n, 1/sample_rate)` and magnitudes `np.abs(np.fft.rfft(x))`. -/
noncomputable def analyze_spectrum (signal_data : List ℝ) (sample_rate : ℝ) :
    List ℝ × List ℝ :=
  (np_rfftfreq signal_data.length (1 / sample_rate),
   (np_rfft signal_data).map Complex.abs)

/-- The peak index is in range for any non-empty equal-length spectrum. -/
theorem carrier_peak_idx_lt_length {α β : Type} [LinearOrderedField α] [LinearOrder β]
    (freqs : List α) (mags : List β) (hlen : freqs.length = mags.length)
    (hne : freqs ≠ []) : carrier_peak_idx freqs mags < freqs.length := by
  have hs := carrier_start_idx_lt_length freqs hne
  have hdropne : mags.drop (carrier_start_idx freqs) ≠ [] := by
    apply List.ne_nil_of_length_pos
    simp only [List.length_drop]
    omega
  have h := np_argmax_lt_length _ hdropne
  rw [List.length_drop] at h
  rw [carrier_peak_idx]
  omega

/-- The returned carrier frequency is one of the input frequency bins. -/
theorem find_carrier_frequency_mem {α β : Type} [LinearOrderedField α] [LinearOrder β]
    (freqs : List α) (mags : List β) (hne : freqs ≠ [])
    (hlen : freqs.length = mags.length) :
    find_carrier_frequency freqs mags ∈ freqs := by
  have hp := carrier_peak_idx_lt_length freqs mags hlen hne
  rw [find_carrier_frequency, List.getD_eq_getElem _ _ hp]
  exact List.getElem_mem hp

/-- C4: for a non-empty real signal of length `N` and positive sample rate
`R`, `analyze_spectrum` returns frequency and magnitude sequences of length
`N / 2 + 1` (floor division), with frequency bin `k` equal to `k·R/N` and
magnitude `k` equal to the complex modulus of the `k`-th one-sided DFT
coefficient, with no normalization by `N`. -/
theorem analyze_spectrum_correct (s : List ℝ) (R : ℝ) (hne : s ≠ []) (hR : 0 < R) :
    (analyze_spectrum s R).1.length = s.length / 2 + 1 ∧
    (analyze_spectrum s R).2.length = s.length / 2 + 1 ∧
    (∀ k, k < s.length / 2 + 1 →
      (analyze_spectrum s R).1.getD k 0 = (k : ℝ) * R / (s.length : ℝ)) ∧
    (∀ k, k < s.length / 2 + 1 →
      (analyze_spectrum s R).2.getD k 0 =
        Complex.abs (∑ j ∈ Finset.range s.length,
          ((s.getD j 0 : ℝ) : ℂ) *
            Complex.exp (-(2 * (Real.pi : ℂ) * Complex.I * (j : ℂ) * (k : ℂ)) /
              (s.length : ℂ)))) := by
  have hn : (s.length : ℝ) ≠ 0 := by
    have := List.length_pos_of_ne_nil (ne_eq _ _ ▸ hne)
    positivity
  refine ⟨by simp [analyze_spectrum, np_rfftfreq], by simp [analyze_spectrum, np_rfft], ?_, ?_⟩
  · intro k hk
    have hk' : k < (np_rfftfreq s.length (1 / R)).length := by simp [np_rfftfreq, hk]
    rw [analyze_spectrum, List.getD_eq_getElem _ _ hk']
    simp only [np_rfftfreq, List.getElem_map, List.getElem_range]
    field_simp
  · intro k hk
    have hk' : k < ((np_rfft s).map Complex.abs).length := by simp [np_rfft, hk]
    rw [analyze_spectrum, List.getD_eq_getElem _ _ hk']
    simp only [List.getElem_map, np_rfft, List.getElem_range]

/-- Witness for C4 at the concrete signal `[1]` with sample rate `1`. -/
theorem analyze_spectrum_correct_witness :
    (analyze_spectrum [(1 : ℝ)] 1).1.length = [(1 : ℝ)].length / 2 + 1 ∧
    (analyze_spectrum [(1 : ℝ)] 1).2.length = [(1 : ℝ)].length / 2 + 1 ∧
    (∀ k, k < [(1 : ℝ)].length / 2 + 1 →
      (analyze_spectrum [(1 : ℝ)] 1).1.getD k 0 = (k : ℝ) * 1 / ([(1 : ℝ)].length : ℝ)) ∧
    (∀ k, k < [(1 : ℝ)].length / 2 + 1 →
      (analyze_spectrum [(1 : ℝ)] 1).2.getD k 0 =
        Complex.abs (∑ j ∈ Finset.range [(1 : ℝ)].length,
          (([(1 : ℝ)].getD j 0 : ℝ) : ℂ) *
            Complex.exp (-(2 * (Real.pi : ℂ) * Complex.I * (j : ℂ) * (k : ℂ)) /
              (([(1 : ℝ)].length : ℕ) : ℂ)))) :=
  analyze_spectrum_correct [(1 : ℝ)] 1 (by simp) (by norm_num)

/-- C10: the carrier returned by `find_carrier_frequency` is always one of
the input frequency bins, and on a spectrum produced by `analyze_spectrum`
it therefore lies between `0` and the Nyquist frequency `R / 2`. -/
theorem find_carrier_frequency_in_spectrum :
    (∀ (freqs mags : List ℝ), freqs ≠ [] → freqs.length = mags.length →
      find_carrier_frequency freqs mags ∈ freqs) ∧
    (∀ (s : List ℝ) (R : ℝ), s ≠ [] → 0 < R →
      0 ≤ find_carrier_frequency (analyze_spectrum s R).1 (analyze_spectrum s R).2 ∧
      find_carrier_frequency (analyze_spectrum s R).1 (analyze_spectrum s R).2 ≤ R / 2) := by
  constructor
  · intro freqs mags hne hlen
    exact find_carrier_frequency_mem freqs mags hne hlen
  · intro s R hne hR
    have hn : 0 < s.length := List.length_pos_of_ne_nil hne
    have hn' : (0 : ℝ) < (s.length : ℝ) := by exact_mod_cast hn
    have hfne : (analyze_spectrum s R).1 ≠ [] := by
      apply List.ne_nil_of_length_pos
      simp [analyze_spectrum, np_rfftfreq]
    have hflen : (analyze_spectrum s R).1.length = (analyze_spectrum s R).2.length := by
      simp [analyze_spectrum, np_rfftfreq, np_rfft]
    have hmem : find_carrier_frequency (analyze_spectrum s R).1 (analyze_spectrum s R).2 ∈
        np_rfftfreq s.length (1 / R) :=
      find_carrier_frequency_mem _ _ hfne hflen
    rw [np_rfftfreq, List.mem_map] at hmem
    obtain ⟨k, hk, hkeq⟩ := hmem
    rw [List.mem_range] at hk
    have hkval : (k : ℝ) / (1 / R * (s.length : ℝ)) = (k : ℝ) * R / (s.length : ℝ) := by
      field_simp
    rw [← hkeq, hkval]
    constructor
    · positivity
    · have hk2 : 2 * k ≤ s.length := by
        have : k ≤ s.length / 2 := Nat.lt_succ_iff.mp hk
        omega
      rw [div_le_div_iff₀ hn' (by norm_num : (0 : ℝ) < 2)]
      have hk2' : (2 : ℝ) * (k : ℝ) ≤ (s.length : ℝ) := by exact_mod_cast hk2
      nlinarith

/-- Witness for C10: both parts applied at concrete inputs. -/
theorem find_carrier_frequency_in_spectrum_witness :
    find_carrier_frequency [(1 : ℝ)] [(1 : ℝ)] ∈ [(1 : ℝ)] ∧
    (0 ≤ find_carrier_frequency (analyze_spectrum [(1 : ℝ)] 2).1
        (analyze_spectrum [(1 : ℝ)] 2).2 ∧
      find_carrier_frequency (analyze_spectrum [(1 : ℝ)] 2).1
        (analyze_spectrum [(1 : ℝ)] 2).2 ≤ 2 / 2) :=
  ⟨find_carrier_frequency_in_spectrum.1 [(1 : ℝ)] [(1 : ℝ)] (by simp) (by simp),
   find_carrier_frequency_in_spectrum.2 [(1 : ℝ)] 2 (by simp) (by norm_num)⟩

/-- Shallow embedding of `demodulate_am` (fft2.py lines 58-88, computation
only; the plotting side effects are peripheral):
`t = np.arange(len(signal_data)) / sample_rate`,
`carrier = np.cos(2 * np.pi * carrier_freq * t)`,
`demodulated = signal_data * carrier`. -/
noncomputable def demodulate_am (signal_data : List ℝ) (sample_rate carrier_freq : ℝ) :
    List ℝ :=
  let t := (List.range signal_data.length).map (fun i : ℕ => (i : ℝ) / sample_rate)
  let carrier := t.map (fun x => Real.cos (2 * Real.pi * carrier_freq * x))
  signal_data.zipWith (· * ·) carrier

/-- `demodulate_am` preserves the length of the signal. -/
theorem demodulate_am_length (s : List ℝ) (R f : ℝ) :
    (demodulate_am s R f).length = s.length := by
  simp [demodulate_am]

/-- Sample `i` of `demodulate_am` is `s[i] · cos(2π·f·(i/R))`. -/
theorem demodulate_am_getD (s : List ℝ) (R f : ℝ) {i : ℕ} (hi : i < s.length) :
    (demodulate_am s R f).getD i 0 =
      s.getD i 0 * Real.cos (2 * Real.pi * f * ((i : ℝ) / R)) := by
  have hlen : i < (demodulate_am s R f).length := by
    rw [demodulate_am_length]
    exact hi
  rw [List.getD_eq_getElem _ _ hlen, List.getD_eq_getElem _ _ hi]
  simp [demodulate_am]

/-- C5: for every signal `s`, positive sample rate `R` and carrier frequency
`f`, `demodulate_am` returns a signal of the same length whose `i`-th sample
is `s[i] · cos(2π·f·i/R)`. -/
theorem demodulate_am_correct (s : List ℝ) (R f : ℝ) (hR : 0 < R) :
    (demodulate_am s R f).length = s.length ∧
    ∀ i, i < s.length →
      (demodulate_am s R f).getD i 0 =
        s.getD i 0 * Real.cos (2 * Real.pi * f * (i : ℝ) / R) := by
  refine ⟨demodulate_am_length s R f, ?_⟩
  intro i hi
  rw [demodulate_am_getD s R f hi, mul_div_assoc]

/-- Witness for C5 at the concrete signal `[1]`, sample rate `1` and carrier
frequency `0`. -/
theorem demodulate_am_correct_witness :
    (0 : ℝ) < 1 ∧
    ((demodulate_am [(1 : ℝ)] 1 0).length = [(1 : ℝ)].length ∧
      ∀ i, i < [(1 : ℝ)].length →
        (demodulate_am [(1 : ℝ)] 1 0).getD i 0 =
          [(1 : ℝ)].getD i 0 * Real.cos (2 * Real.pi * 0 * (i : ℝ) / 1)) :=
  ⟨by norm_num, demodulate_am_correct [(1 : ℝ)] 1 0 (by norm_num)⟩

/-- C9: demodulation never increases sample magnitude — the locally
generated carrier has modulus at most one — and zero samples stay zero. -/
theorem demodulate_am_no_gain (s : List ℝ) (R f : ℝ) (hR : 0 < R) :
    ∀ i, i < s.length →
      |(demodulate_am s R f).getD i 0| ≤ |s.getD i 0| ∧
      (s.getD i 0 = 0 → (demodulate_am s R f).getD i 0 = 0) := by
  intro i hi
  rw [demodulate_am_getD s R f hi]
  constructor
  · rw [abs_mul]
    calc |s.getD i 0| * |Real.cos (2 * Real.pi * f * ((i : ℝ) / R))|
        ≤ |s.getD i 0| * 1 :=
          mul_le_mul_of_nonneg_left (Real.abs_cos_le_one _) (abs_nonneg _)
      _ = |s.getD i 0| := mul_one _
  · intro h0
    rw [h0, zero_mul]

/-- Witness for C9 at the concrete signal `[1]`, sample rate `1` and carrier
frequency `0`. -/
theorem demodulate_am_no_gain_witness :
    (0 : ℝ) < 1 ∧
    (∀ i, i < [(1 : ℝ)].length →
      |(demodulate_am [(1 : ℝ)] 1 0).getD i 0| ≤ |[(1 : ℝ)].getD i 0| ∧
      ([(1 : ℝ)].getD i 0 = 0 → (demodulate_am [(1 : ℝ)] 1 0).getD i 0 = 0)) :=
  ⟨by norm_num, demodulate_am_no_gain [(1 : ℝ)] 1 0 (by norm_num)⟩

/-- `np.iinfo(dtype).max` for a signed `bits`-bit integer dtype. -/
def iinfo_max (bits : ℕ) : ℤ := 2 ^ (bits - 1) - 1

/-- `np.iinfo(dtype).min` for a signed `bits`-bit integer dtype. -/
def iinfo_min (bits : ℕ) : ℤ := -(2 ^ (bits - 1))

/-- The integer-PCM rescaling step of `load_audio` (fft2.py line 12):
`audio_data.astype(float) / np.iinfo(audio_data.dtype).max`. -/
def int_rescale (bits : ℕ) (x : ℤ) : ℚ := (x : ℚ) / ((iinfo_max bits : ℤ) : ℚ)

/-- `np.mean(frame)`: arithmetic mean across the channel axis
(fft2.py line 16). -/
def channel_mean (frame : List ℚ) : ℚ := frame.sum / (frame.length : ℚ)

/-- The array `wavfile.read` hands to `load_audio`: signed-integer
(`dtype.kind` is the letter i; e.g. int16/int32 PCM), unsigned-integer
(`dtype.kind` is the letter u; 8-bit PCM WAV reads as uint8) or float
samples, one or two dimensional (the inner lists of the 2-d cases are the
per-sample channel values). -/
inductive AudioArray : Type
  | int1d (bits : ℕ) (samples : List ℤ)
  | int2d (bits : ℕ) (frames : List (List ℤ))
  | uint1d (bits : ℕ) (samples : List ℕ)
  | uint2d (bits : ℕ) (frames : List (List ℕ))
  | float1d (samples : List ℚ)
  | float2d (frames : List (List ℚ))

/-- Shallow embedding of `load_audio`'s sample processing (fft2.py lines
9-18): the rescaling branch tests `audio_data.dtype.kind` against the
letter i (fft2.py line 11), which holds only for SIGNED integer dtypes —
those are rescaled by `np.iinfo(dtype).max`; unsigned integer dtypes (kind
the letter u, e.g. uint8) fail the test and pass through raw, as do floats;
a second dimension is averaged per sample index into mono. -/
def load_audio : AudioArray → List ℚ
  | .int1d bits s => s.map (int_rescale bits)
  | .int2d bits frames => frames.map (fun fr => channel_mean (fr.map (int_rescale bits)))
  | .uint1d _ s => s.map (fun x : ℕ => (x : ℚ))
  | .uint2d _ frames => frames.map (fun fr => channel_mean (fr.map (fun x : ℕ => (x : ℚ))))
  | .float1d s => s
  | .float2d frames => frames.map channel_mean

/-- The mean of a non-empty list of values in `[a, b]` stays in `[a, b]`. -/
theorem channel_mean_bounds (fr : List ℚ) (a b : ℚ) (hne : fr ≠ [])
    (h : ∀ x ∈ fr, a ≤ x ∧ x ≤ b) :
    a ≤ channel_mean fr ∧ channel_mean fr ≤ b := by
  have hn : 0 < (fr.length : ℚ) := by
    have := List.length_pos_of_ne_nil hne
    exact_mod_cast this
  have hsum_le : fr.sum ≤ fr.length • b :=
    List.sum_le_card_nsmul fr b (fun x hx => (h x hx).2)
  have hle_sum : fr.length • a ≤ fr.sum :=
    List.card_nsmul_le_sum fr a (fun x hx => (h x hx).1)
  rw [nsmul_eq_mul] at hsum_le hle_sum
  constructor
  · rw [channel_mean, le_div_iff₀ hn, mul_comm]
    exact hle_sum
  · rw [channel_mean, div_le_iff₀ hn, mul_comm]
    exact hsum_le

/-- The integer rescaling maps the dtype's representable range into
`[-2^(bits-1)/(2^(bits-1)-1), 1]`. -/
theorem int_rescale_bounds (bits : ℕ) (hb : 2 ≤ bits) (x : ℤ)
    (hlo : iinfo_min bits ≤ x) (hhi : x ≤ iinfo_max bits) :
    -((2 : ℚ) ^ (bits - 1) / ((2 : ℚ) ^ (bits - 1) - 1)) ≤ int_rescale bits x ∧
    int_rescale bits x ≤ 1 := by
  have h2 : (2 : ℚ) ≤ (2 : ℚ) ^ (bits - 1) := by
    calc (2 : ℚ) = 2 ^ 1 := (pow_one 2).symm
      _ ≤ 2 ^ (bits - 1) := by
        apply pow_le_pow_right₀ (by norm_num)
        omega
  have hM : (0 : ℚ) < (2 : ℚ) ^ (bits - 1) - 1 := by linarith
  have hcast : ((iinfo_max bits : ℤ) : ℚ) = (2 : ℚ) ^ (bits - 1) - 1 := by
    rw [iinfo_max]
    push_cast
    ring
  have hhi' : (x : ℚ) ≤ (2 : ℚ) ^ (bits - 1) - 1 := by
    rw [← hcast]
    exact_mod_cast hhi
  have hlo' : -((2 : ℚ) ^ (bits - 1)) ≤ (x : ℚ) := by
    have : ((iinfo_min bits : ℤ) : ℚ) ≤ (x : ℚ) := by exact_mod_cast hlo
    rw [iinfo_min] at this
    push_cast at this
    linarith
  rw [int_rescale, hcast]
  constructor
  · rw [← neg_div]
    gcongr
  · rw [div_le_one hM]
    exact hhi'

/-- A raw unsigned sample below `2^bits` casts into `[0, 2^bits - 1]`. -/
theorem uint_cast_bounds (bits : ℕ) (x : ℕ) (hx : x < 2 ^ bits) :
    (0 : ℚ) ≤ (x : ℚ) ∧ (x : ℚ) ≤ (2 : ℚ) ^ bits - 1 := by
  refine ⟨by positivity, ?_⟩
  have h1 : x ≤ 2 ^ bits - 1 := by omega
  have h2 : (1 : ℕ) ≤ 2 ^ bits := Nat.one_le_pow _ _ (by norm_num)
  have hc : (x : ℚ) ≤ ((2 ^ bits - 1 : ℕ) : ℚ) := by exact_mod_cast h1
  rw [Nat.cast_sub h2] at hc
  push_cast at hc
  exact hc

/-- C3 (amended): for SIGNED integer-PCM input whose samples lie in the
dtype's representable range, every sample returned by `load_audio` lies in
`[-2^(bits-1)/(2^(bits-1)-1), 1]` — the lower end is slightly below `-1`
because the code divides by `np.iinfo(dtype).max`, not by the magnitude of
the most negative value; UNSIGNED integer PCM (e.g. uint8 from 8-bit PCM
WAV) fails the `dtype.kind` test at fft2.py line 11 and is not rescaled at
all, passing through raw in `[0, 2^bits - 1]`; floating-point input passes
through unscaled. -/
theorem load_audio_range_amended :
    (∀ (bits : ℕ) (s : List ℤ), 2 ≤ bits →
      (∀ x ∈ s, iinfo_min bits ≤ x ∧ x ≤ iinfo_max bits) →
      ∀ y ∈ load_audio (.int1d bits s),
        -((2 : ℚ) ^ (bits - 1) / ((2 : ℚ) ^ (bits - 1) - 1)) ≤ y ∧ y ≤ 1) ∧
    (∀ (bits : ℕ) (frames : List (List ℤ)), 2 ≤ bits →
      (∀ fr ∈ frames, fr ≠ [] ∧ ∀ x ∈ fr, iinfo_min bits ≤ x ∧ x ≤ iinfo_max bits) →
      ∀ y ∈ load_audio (.int2d bits frames),
        -((2 : ℚ) ^ (bits - 1) / ((2 : ℚ) ^ (bits - 1) - 1)) ≤ y ∧ y ≤ 1) ∧
    (∀ (bits : ℕ) (s : List ℕ),
      load_audio (.uint1d bits s) = s.map (fun x : ℕ => (x : ℚ))) ∧
    (∀ (bits : ℕ) (s : List ℕ), (∀ x ∈ s, x < 2 ^ bits) →
      ∀ y ∈ load_audio (.uint1d bits s), 0 ≤ y ∧ y ≤ (2 : ℚ) ^ bits - 1) ∧
    (∀ (bits : ℕ) (frames : List (List ℕ)),
      (∀ fr ∈ frames, fr ≠ [] ∧ ∀ x ∈ fr, x < 2 ^ bits) →
      ∀ y ∈ load_audio (.uint2d bits frames), 0 ≤ y ∧ y ≤ (2 : ℚ) ^ bits - 1) ∧
    (∀ s : List ℚ, load_audio (.float1d s) = s) := by
  refine ⟨?_, ?_, fun bits s => rfl, ?_, ?_, fun s => rfl⟩
  · intro bits s hb hrange y hy
    rw [load_audio, List.mem_map] at hy
    obtain ⟨x, hx, rfl⟩ := hy
    exact int_rescale_bounds bits hb x (hrange x hx).1 (hrange x hx).2
  · intro bits frames hb hframes y hy
    rw [load_audio, List.mem_map] at hy
    obtain ⟨fr, hfr, rfl⟩ := hy
    obtain ⟨hfne, hrange⟩ := hframes fr hfr
    apply channel_mean_bounds _ _ _ (by simpa using hfne)
    intro v hv
    rw [List.mem_map] at hv
    obtain ⟨x, hx, rfl⟩ := hv
    exact int_rescale_bounds bits hb x (hrange x hx).1 (hrange x hx).2
  · intro bits s hrange y hy
    rw [load_audio, List.mem_map] at hy
    obtain ⟨x, hx, rfl⟩ := hy
    exact uint_cast_bounds bits x (hrange x hx)
  · intro bits frames hframes y hy
    rw [load_audio, List.mem_map] at hy
    obtain ⟨fr, hfr, rfl⟩ := hy
    obtain ⟨hfne, hrange⟩ := hframes fr hfr
    apply channel_mean_bounds _ _ _ (by simpa using hfne)
    intro v hv
    rw [List.mem_map] at hv
    obtain ⟨x, hx, rfl⟩ := hv
    exact uint_cast_bounds bits x (hrange x hx)

/-- Counterexample to C3 as stated, in both of its failure modes: the int16
sample `-32768` is in the dtype's range, yet `load_audio` returns
`-32768/32767`, strictly below `-1`; and the uint8 sample `255` is in the
dtype's range, yet `load_audio` does not rescale it at all and returns
`255`, far above `1`. -/
theorem load_audio_range_cx :
    ((iinfo_min 16 ≤ (-32768 : ℤ) ∧ (-32768 : ℤ) ≤ iinfo_max 16) ∧
      ¬ (∀ y ∈ load_audio (.int1d 16 [(-32768 : ℤ)]), -1 ≤ y ∧ y ≤ 1)) ∧
    (((255 : ℕ) < 2 ^ 8) ∧
      ¬ (∀ y ∈ load_audio (.uint1d 8 [(255 : ℕ)]), -1 ≤ y ∧ y ≤ 1)) := by
  refine ⟨⟨?_, ?_⟩, ?_, ?_⟩
  · constructor <;> decide
  · intro h
    have hmem : int_rescale 16 (-32768) ∈ load_audio (.int1d 16 [(-32768 : ℤ)]) := by
      rw [load_audio]
      simp
    have hval : ¬ (-1 ≤ int_rescale 16 (-32768)) := by
      rw [int_rescale, iinfo_max]
      norm_num
    exact hval (h _ hmem).1
  · decide
  · intro h
    have hmem : ((255 : ℕ) : ℚ) ∈ load_audio (.uint1d 8 [(255 : ℕ)]) := by
      rw [load_audio]
      simp
    have := (h _ hmem).2
    norm_num at this

/-- Witness for C3 (amended) on the one-sample int16 input `[-32768]`, the
one-frame stereo int16 input `[[-32768, 32767]]`, the one-sample uint8
input `[255]` and the one-frame stereo uint8 input `[[0, 255]]`. -/
theorem load_audio_range_amended_witness :
    ((2 ≤ 16) ∧ (∀ x ∈ [(-32768 : ℤ)], iinfo_min 16 ≤ x ∧ x ≤ iinfo_max 16) ∧
      ∀ y ∈ load_audio (.int1d 16 [(-32768 : ℤ)]),
        -((2 : ℚ) ^ (16 - 1) / ((2 : ℚ) ^ (16 - 1) - 1)) ≤ y ∧ y ≤ 1) ∧
    ((∀ fr ∈ [[(-32768 : ℤ), 32767]],
        fr ≠ [] ∧ ∀ x ∈ fr, iinfo_min 16 ≤ x ∧ x ≤ iinfo_max 16) ∧
      ∀ y ∈ load_audio (.int2d 16 [[(-32768 : ℤ), 32767]]),
        -((2 : ℚ) ^ (16 - 1) / ((2 : ℚ) ^ (16 - 1) - 1)) ≤ y ∧ y ≤ 1) ∧
    ((∀ x ∈ [(255 : ℕ)], x < 2 ^ 8) ∧
      ∀ y ∈ load_audio (.uint1d 8 [(255 : ℕ)]), 0 ≤ y ∧ y ≤ (2 : ℚ) ^ 8 - 1) ∧
    ((∀ fr ∈ [[(0 : ℕ), 255]], fr ≠ [] ∧ ∀ x ∈ fr, x < 2 ^ 8) ∧
      ∀ y ∈ load_audio (.uint2d 8 [[(0 : ℕ), 255]]), 0 ≤ y ∧ y ≤ (2 : ℚ) ^ 8 - 1) :=
  ⟨⟨by norm_num, by decide,
      load_audio_range_amended.1 16 [(-32768 : ℤ)] (by norm_num) (by decide)⟩,
   ⟨by decide,
      load_audio_range_amended.2.1 16 [[(-32768 : ℤ), 32767]] (by norm_num) (by decide)⟩,
   ⟨by decide,
      load_audio_range_amended.2.2.2.1 8 [(255 : ℕ)] (by decide)⟩,
   ⟨by decide,
      load_audio_range_amended.2.2.2.2.1 8 [[(0 : ℕ), 255]] (by decide)⟩⟩

/-- `np.max(np.abs(x))` (fft2.py line 136).  numpy raises on an empty array;
the fold's base `0` is never the result on the non-empty lists the theorems
assume, since absolute values are non-negative. -/
def np_abs_max (l : List ℚ) : ℚ := (l.map (fun x => |x|)).foldr max 0

/-- Every absolute value of the list is bounded by `np_abs_max`. -/
theorem np_abs_max_le (l : List ℚ) (x : ℚ) (hx : x ∈ l) : |x| ≤ np_abs_max l := by
  induction l with
  | nil => simp at hx
  | cons a l ih =>
    rw [List.mem_cons] at hx
    rw [np_abs_max, List.map_cons, List.foldr_cons]
    rcases hx with rfl | hx
    · exact le_max_left _ _
    · exact le_trans (ih hx) (le_max_right _ _)

/-- `.astype(np.int16)` on a float array truncates toward zero (C cast);
on the values produced by `save_audio` no int16 overflow can occur, so the
wrap-around branch of the cast is never exercised and is not modelled. -/
def trunc_int (q : ℚ) : ℤ := if 0 ≤ q then ⌊q⌋ else ⌈q⌉

/-- Truncation toward zero moves a value by at most one. -/
theorem trunc_int_err (q : ℚ) : |(trunc_int q : ℚ) - q| ≤ 1 := by
  rw [trunc_int]
  split
  · rw [abs_le]
    constructor
    · linarith [Int.sub_one_lt_floor q]
    · linarith [Int.floor_le q]
  · rw [abs_le]
    constructor
    · linarith [Int.le_ceil q]
    · linarith [Int.ceil_lt_add_one q]

/-- Shallow embedding of `save_audio` (fft2.py lines 134-138): peak
normalization `signal_data / np.max(np.abs(signal_data))`, scaling by
`32767` and truncation to int16; the wav file then carries the sample rate
unchanged together with the integer samples.  Exact rational arithmetic
models the float computation for the non-degenerate case of a nonzero peak
(see `save_audio_normalized` for the all-zero case with IEEE semantics). -/
def save_audio (signal_data : List ℚ) (sample_rate : ℚ) : ℚ × List ℤ :=
  (sample_rate,
   (signal_data.map (fun x => x / np_abs_max signal_data)).map
     (fun x => trunc_int (x * 32767)))

/-- `int_rescale` at the int16 width divides by `32767`. -/
theorem int_rescale_16 (z : ℤ) : int_rescale 16 z = (z : ℚ) / 32767 := by
  rw [int_rescale, iinfo_max]
  norm_num

/-- C8 (amended): saving a signal with at least one nonzero sample and
reloading it preserves the sample rate and length, and reproduces the
PEAK-NORMALIZED original — `s[i] / np.max(np.abs(s))`, not `s[i]` — within
`1/32767` per sample. -/
theorem save_load_roundtrip_amended (s : List ℚ) (R : ℚ)
    (hex : ∃ x ∈ s, x ≠ 0) :
    (save_audio s R).1 = R ∧
    (load_audio (.int1d 16 (save_audio s R).2)).length = s.length ∧
    ∀ i, i < s.length →
      |(load_audio (.int1d 16 (save_audio s R).2)).getD i 0 -
        s.getD i 0 / np_abs_max s| ≤ 1 / 32767 := by
  obtain ⟨x0, hx0mem, hx0⟩ := hex
  refine ⟨rfl, by simp [save_audio, load_audio], ?_⟩
  intro i hi
  have hi1 : i < (load_audio (.int1d 16 (save_audio s R).2)).length := by
    simpa [save_audio, load_audio] using hi
  rw [List.getD_eq_getElem _ _ hi1, List.getD_eq_getElem _ _ hi]
  simp only [load_audio, save_audio, List.getElem_map]
  rw [int_rescale_16]
  have h32 : (32767 : ℚ) ≠ 0 := by norm_num
  have hyd : s[i] / np_abs_max s * 32767 / 32767 = s[i] / np_abs_max s :=
    mul_div_cancel_right₀ _ h32
  calc |(trunc_int (s[i] / np_abs_max s * 32767) : ℚ) / 32767 - s[i] / np_abs_max s|
      = |(trunc_int (s[i] / np_abs_max s * 32767) : ℚ) / 32767 -
          s[i] / np_abs_max s * 32767 / 32767| := by rw [hyd]
    _ = |((trunc_int (s[i] / np_abs_max s * 32767) : ℚ) -
          s[i] / np_abs_max s * 32767) / 32767| := by rw [div_sub_div_same]
    _ = |(trunc_int (s[i] / np_abs_max s * 32767) : ℚ) -
          s[i] / np_abs_max s * 32767| / 32767 := by
        rw [abs_div]
        norm_num
    _ ≤ 1 / 32767 := by
        gcongr
        exact trunc_int_err _

/-- Counterexample to C8 as stated: the signal `[1/2]` reloads as `[1]`
because `save_audio` peak-normalizes before quantizing, and `|1 - 1/2|`
far exceeds `1/32767`. -/
theorem save_load_roundtrip_cx :
    (∃ x ∈ [(1 : ℚ)/2], x ≠ 0) ∧
    ¬ (∀ i, i < [(1 : ℚ)/2].length →
        |(load_audio (.int1d 16 (save_audio [(1 : ℚ)/2] 8).2)).getD i 0 -
          [(1 : ℚ)/2].getD i 0| ≤ 1 / 32767) := by
  have hpeak : np_abs_max [(1 : ℚ)/2] = 1/2 := by
    rw [np_abs_max]
    simp only [List.map_cons, List.map_nil, List.foldr_cons, List.foldr_nil]
    rw [abs_of_nonneg (by norm_num)]
    norm_num
  have hsave : (save_audio [(1 : ℚ)/2] 8).2 = [32767] := by
    rw [save_audio]
    simp only [List.map_cons, List.map_nil, hpeak]
    norm_num [trunc_int]
  have hload : load_audio (.int1d 16 [(32767 : ℤ)]) = [1] := by
    rw [load_audio]
    simp only [List.map_cons, List.map_nil]
    rw [int_rescale_16]
    norm_num
  constructor
  · exact ⟨1/2, by simp, by norm_num⟩
  · intro h
    have h0 := h 0 (by simp)
    rw [hsave, hload] at h0
    simp only [List.getD_cons_zero] at h0
    norm_num at h0
    rw [abs_of_nonneg (by norm_num : (0 : ℚ) ≤ 1/2)] at h0
    norm_num at h0

/-- Witness for C8 (amended) at the concrete signal `[1/2]` with sample
rate `8`. -/
theorem save_load_roundtrip_amended_witness :
    (∃ x ∈ [(1 : ℚ)/2], x ≠ 0) ∧
    ((save_audio [(1 : ℚ)/2] 8).1 = 8 ∧
      (load_audio (.int1d 16 (save_audio [(1 : ℚ)/2] 8).2)).length =
        [(1 : ℚ)/2].length ∧
      ∀ i, i < [(1 : ℚ)/2].length →
        |(load_audio (.int1d 16 (save_audio [(1 : ℚ)/2] 8).2)).getD i 0 -
          [(1 : ℚ)/2].getD i 0 / np_abs_max [(1 : ℚ)/2]| ≤ 1 / 32767) :=
  ⟨⟨1/2, by simp, by norm_num⟩,
   save_load_roundtrip_amended [(1 : ℚ)/2] 8 ⟨1/2, by simp, by norm_num⟩⟩

/-- The IEEE value produced by dividing finite doubles: finite (exact
rational), `nan` (from `0/0`), or a signed infinity (from `x/0`, `x ≠ 0`).
Overflow to infinity cannot occur at the magnitudes involved here and is
not modelled. -/
inductive FloatVal : Type
  | fin (q : ℚ)
  | nan
  | inf
  | ninf
deriving DecidableEq

/-- IEEE-754 division of two finite doubles, exact arithmetic elsewhere. -/
def fdiv (a b : ℚ) : FloatVal :=
  if b = 0 then
    (if a = 0 then FloatVal.nan else if 0 < a then FloatVal.inf else FloatVal.ninf)
  else FloatVal.fin (a / b)

/-- The peak-normalization step of `save_audio` (fft2.py line 136) under
IEEE division semantics: `signal_data / np.max(np.abs(signal_data))`,
performed unconditionally — the source contains no guard of any kind (and
no DegenerateSignal error anywhere) before this division. -/
def save_audio_normalized (signal_data : List ℚ) : List FloatVal :=
  signal_data.map (fun x => fdiv x (np_abs_max signal_data))

/-- C6: the code fails to fail.  On the all-zero two-sample signal the peak
is `0`, `save_audio`'s normalization computes `0/0` for every sample, and
the result is silently NaN in every position — no DegenerateSignal (or any
explicit error) is raised anywhere in the source. -/
theorem save_audio_all_zero_nan :
    save_audio_normalized [0, 0] = [FloatVal.nan, FloatVal.nan] := by
  have hpeak : np_abs_max [(0 : ℚ), 0] = 0 := by
    rw [np_abs_max]
    simp
  rw [save_audio_normalized, hpeak]
  simp [fdiv]

/-- Modelled from the spec: the precondition `0 < low < high < Nyquist`
that §4.5 and §7(c) require to be checked before filter design; the source
(fft2.py lines 90-95) contains no corresponding check. -/
def validFilterSpec (sample_rate lowcut highcut : ℚ) : Prop :=
  0 < lowcut ∧ lowcut < highcut ∧ highcut < sample_rate / 2

/-- Control flow of `apply_bandpass_filter` up to the design call (fft2.py
lines 90-95): the function computes `nyquist = 0.5 * sample_rate`,
`low = lowcut / nyquist`, `high = highcut / nyquist` and invokes
`signal.butter(order, [low, high], btype='band')` unconditionally; no
conditional examines the cutoffs first.  `rejected` would record a
configuration error raised before the design call — the source never
produces it. -/
inductive BandpassPreDesign : Type
  | designCalled (order : ℕ) (low high : ℚ)
  | rejected
deriving DecidableEq

/-- The pre-design phase of `apply_bandpass_filter` (fft2.py lines 91-94). -/
def apply_bandpass_predesign (sample_rate lowcut highcut : ℚ) (order : ℕ) :
    BandpassPreDesign :=
  BandpassPreDesign.designCalled order (lowcut / (1 / 2 * sample_rate))
    (highcut / (1 / 2 * sample_rate))

/-- C7: the filter stage performs no validation.  With cutoffs violating
`0 < low < high < Nyquist` (low 6000 Hz, high 20 Hz at 44100 Hz) the stage
still proceeds straight to the design call with the normalized cutoffs; no
InvalidFilterSpec error is raised before filter design executes. -/
theorem apply_bandpass_no_spec_check :
    ¬ validFilterSpec 44100 6000 20 ∧
    apply_bandpass_predesign 44100 6000 20 5 =
      BandpassPreDesign.designCalled 5 (6000 / 22050) (20 / 22050) ∧
    apply_bandpass_predesign 44100 6000 20 5 ≠ BandpassPreDesign.rejected := by
  refine ⟨?_, ?_, ?_⟩
  · rw [validFilterSpec]
    norm_num
  · rw [apply_bandpass_predesign]
    norm_num
  · rw [apply_bandpass_predesign]
    simp
